import Mathlib

/-!
Verification development for the `blip` repository (DOS-style text blip
synthesizer).  The Python sources `blip.py`, `miniblip.py` and
`ollamablip.py` share one audio core: grain synthesizers, a variation
bank, a per-line onset scheduler, an overlay mixer with a peak limiter,
a 16-bit PCM encoder, and (in `ollamablip.py`) a queue-draining audio
worker thread.

The embedding below models that core over exact rationals.  Python's
`float` transcendental calls (`math.sin`, `math.cos`, `math.pi`) are
abstracted into a `TrigOracle` parameter: every structural theorem is
proved for an arbitrary oracle, and concrete instances use a trivial
oracle.  Python's `int(...)` conversion (truncation toward zero) is
modelled by `pyInt`.  Python text strings are modelled as `List Char`.
The `random.random()` stream consumed by the noise synthesizer is
modelled by an explicit stream `rng : ℕ → ℚ` together with the index
of the next unconsumed draw.
-/

/-- Python `int(x)` applied to a real value: truncation toward zero. -/
def pyInt (q : ℚ) : ℤ := if q < 0 then ⌈q⌉ else ⌊q⌋

/-- Rounding to the nearest integer (ties upward); this is the reading
of the word "round" used by the specification text. -/
def roundQ (q : ℚ) : ℤ := ⌊q + 1 / 2⌋

/-- Python `clamp(x, -1.0, 1.0)` from `blip.py` (`C` in `miniblip.py`). -/
def clampQ (x : ℚ) : ℚ := if x < -1 then -1 else if x > 1 then 1 else x

/-- Abstraction of the `math` module's transcendental functions (sine,
cosine, the constant pi) as used by the grain synthesizers.  All
structural theorems hold for every oracle. -/
structure TrigOracle where
  sinq : ℚ → ℚ
  cosq : ℚ → ℚ
  piq : ℚ

/-- A trivial oracle used to build concrete instances. -/
def O0 : TrigOracle := ⟨fun _ => 0, fun _ => 0, 0⟩

/-- `hann_env(n, total)` from `blip.py`: Hann window value at index `n`
of a window of length `total` (`1.0` when `total <= 1`). -/
def hann_env (O : TrigOracle) (n total : ℕ) : ℚ :=
  if total ≤ 1 then 1
  else (1 / 2) * (1 - O.cosq (2 * O.piq * ((n : ℚ) / ((total : ℚ) - 1))))

/-- Python float `x % 1.0` (the result carries the divisor's sign):
the fractional part. -/
def fract1 (x : ℚ) : ℚ := x - ⌊x⌋

/-- Loop of `synth_fixed` from `blip.py`: emits the samples at indices
`i, i+1, ...` while `fuel` lasts, threading the phase accumulator
(including the source's `if phase > 1e9: phase -= 1e9` guard). -/
def fixedGo (O : TrigOracle) (freq duty vibrato_rate vibrato_depth amp : ℚ)
    (sr : ℤ) (waveform : String) (n : ℕ) : ℕ → ℕ → ℚ → List ℚ
  | _, 0, _ => []
  | i, fuel + 1, phase =>
    let t : ℚ := (i : ℚ) / (sr : ℚ)
    let f : ℚ := if vibrato_rate > 0 then
        freq * (1 + vibrato_depth * O.sinq (2 * O.piq * vibrato_rate * t))
      else freq
    let ph1 : ℚ := phase + 2 * O.piq * f / (sr : ℚ)
    let ph : ℚ := if ph1 > 10 ^ 9 then ph1 - 10 ^ 9 else ph1
    let p : ℚ := fract1 (ph / (2 * O.piq))
    let v : ℚ :=
      if waveform = "sine" then O.sinq ph
      else if waveform = "triangle" then 2 * |2 * p - 1| - 1
      else if waveform = "saw" then 2 * p - 1
      else if waveform = "pulse" then (if p < duty then 1 else -1)
      else O.sinq ph
    v * hann_env O i n * amp ::
      fixedGo O freq duty vibrato_rate vibrato_depth amp sr waveform n (i + 1) fuel ph

/-- `synth_fixed` from `blip.py`: fixed-tone grain with optional
vibrato; `n = int(sr * (dur_ms / 1000.0))` samples. -/
def synth_fixed (O : TrigOracle) (freq dur_ms : ℚ) (waveform : String)
    (duty vibrato_rate vibrato_depth amp : ℚ) (sr : ℤ) : List ℚ :=
  let n : ℕ := (pyInt ((sr : ℚ) * (dur_ms / 1000))).toNat
  fixedGo O freq duty vibrato_rate vibrato_depth amp sr waveform n 0 n 0

/-- Loop of `synth_sweep` from `blip.py` (no vibrato, no phase-wrap
guard; `u = i / max(1, n - 1)`). -/
def sweepGo (O : TrigOracle) (f0 f1 amp : ℚ) (sr : ℤ) (waveform : String)
    (n : ℕ) : ℕ → ℕ → ℚ → List ℚ
  | _, 0, _ => []
  | i, fuel + 1, phase =>
    let u : ℚ := (i : ℚ) / ((max 1 (n - 1) : ℕ) : ℚ)
    let f : ℚ := f0 + (f1 - f0) * u
    let ph : ℚ := phase + 2 * O.piq * f / (sr : ℚ)
    let p : ℚ := fract1 (ph / (2 * O.piq))
    let v : ℚ :=
      if waveform = "sine" then O.sinq ph
      else if waveform = "triangle" then 2 * |2 * p - 1| - 1
      else if waveform = "saw" then 2 * p - 1
      else O.sinq ph
    v * hann_env O i n * amp :: sweepGo O f0 f1 amp sr waveform n (i + 1) fuel ph

/-- `synth_sweep` from `blip.py`: linear frequency sweep grain. -/
def synth_sweep (O : TrigOracle) (f0 f1 dur_ms : ℚ) (waveform : String)
    (amp : ℚ) (sr : ℤ) : List ℚ :=
  let n : ℕ := (pyInt ((sr : ℚ) * (dur_ms / 1000))).toNat
  sweepGo O f0 f1 amp sr waveform n 0 n 0

/-- Loop of `synth_noise` from `blip.py`; `rng k` is the value returned
by the `k`-th `random.random()` call made by the process, and `pos` is
the index of the first draw this grain consumes. -/
def noiseGo (O : TrigOracle) (rng : ℕ → ℚ) (pos : ℕ) (lowpass_alpha amp : ℚ)
    (n : ℕ) : ℕ → ℕ → ℚ → List ℚ
  | _, 0, _ => []
  | i, fuel + 1, y =>
    let x : ℚ := rng (pos + i) * 2 - 1
    let y1 : ℚ := lowpass_alpha * x + (1 - lowpass_alpha) * y
    y1 * hann_env O i n * amp :: noiseGo O rng pos lowpass_alpha amp n (i + 1) fuel y1

/-- `synth_noise` from `blip.py`: one-pole low-passed white noise grain,
consuming the draws `rng pos, ..., rng (pos + n - 1)` of the global
random stream. -/
def synth_noise (O : TrigOracle) (rng : ℕ → ℚ) (pos : ℕ)
    (dur_ms lowpass_alpha amp : ℚ) (sr : ℤ) : List ℚ :=
  let n : ℕ := (pyInt ((sr : ℚ) * (dur_ms / 1000))).toNat
  noiseGo O rng pos lowpass_alpha amp n 0 n 0

/-- Number of random draws `synth_noise` consumes. -/
def noiseDraws (dur_ms : ℚ) (sr : ℤ) : ℕ :=
  (pyInt ((sr : ℚ) * (dur_ms / 1000))).toNat

/-- `synth_fm` from `blip.py`: two-operator FM grain (stateless loop). -/
def synth_fm (O : TrigOracle) (car_freq rat index dur_ms amp : ℚ)
    (sr : ℤ) : List ℚ :=
  let n : ℕ := (pyInt ((sr : ℚ) * (dur_ms / 1000))).toNat
  (List.range n).map (fun (i : ℕ) =>
    let t : ℚ := (i : ℚ) / (sr : ℚ)
    let m : ℚ := O.sinq (2 * O.piq * (car_freq * rat) * t)
    O.sinq (2 * O.piq * car_freq * t + index * m) * hann_env O i n * amp)

/-- `limit_peak` from `blip.py` (`LIM` in the other two files):
optional DC-block (subtract the arithmetic mean), then scale by
`limit / peak` only when the peak exceeds `limit`; empty input is
returned unchanged.  The source's `max(abs(s) for s in samples)` over a
nonempty list is modelled as `foldr max 0` over the absolute values
(all nonnegative, so the `0` seed is neutral). -/
def limit_peak (samples : List ℚ) (limit : ℚ) (dc_block : Bool) : List ℚ :=
  if samples = [] then samples
  else
    let s1 : List ℚ :=
      if dc_block then
        let m : ℚ := samples.sum / (samples.length : ℚ)
        samples.map (fun s => s - m)
      else samples
    let peak : ℚ := max (1 / 10 ^ 12) ((s1.map (fun s => |s|)).foldr max 0)
    if peak > limit then s1.map (fun s => s * (limit / peak)) else s1

/-- The `Variation` dataclass of `blip.py`: a named grain with its
nominal duration in milliseconds. -/
structure Variation where
  name : String
  grain : List ℚ
  dur_ms : ℚ
deriving DecidableEq

/-- The `mk` helper inside `build_variations`: wraps samples with the
default peak limit (`limit_peak(samples)`, i.e. limit 0.98, DC-block on). -/
def mkVar (name : String) (samples : List ℚ) (ms : ℚ) : Variation :=
  ⟨name, limit_peak samples (98 / 100) true, ms⟩

/-- `build_variations(amp, sr)` from `blip.py`: the 20 named presets, in
source order.  The two noise-based presets consume draws of the global
random stream; the second component is the stream position after the
build (`noise_click` consumes `noiseDraws 40 sr` draws, the noise part
of `fe_gba_click` the following `noiseDraws 24 sr`). -/
def build_variations (O : TrigOracle) (rng : ℕ → ℚ) (pos : ℕ) (amp : ℚ)
    (sr : ℤ) : List Variation × ℕ :=
  let n1 : ℕ := noiseDraws 40 sr
  let n2 : ℕ := noiseDraws 24 sr
  ([mkVar "pulse25_mid" (synth_fixed O 820 55 "pulse" (1 / 4) 0 0 amp sr) 55,
    mkVar "pulse12_bright" (synth_fixed O 920 55 "pulse" (1 / 8) 0 0 amp sr) 55,
    mkVar "triangle_soft" (synth_fixed O 600 55 "triangle" (1 / 4) 0 0 amp sr) 55,
    mkVar "saw_buzzy" (synth_fixed O 700 55 "saw" (1 / 4) 0 0 amp sr) 55,
    mkVar "sine_up_sweep" (synth_sweep O 650 900 70 "sine" amp sr) 70,
    mkVar "sine_down_sweep" (synth_sweep O 950 650 70 "sine" amp sr) 70,
    mkVar "pulse_vibrato" (synth_fixed O 850 60 "pulse" (1 / 4) 8 (6 / 100) amp sr) 60,
    mkVar "noise_click" (synth_noise O rng pos 40 (22 / 100) (amp * (9 / 10)) sr) 40,
    mkVar "two_tone" (synth_fixed O 700 26 "sine" (1 / 4) 0 0 amp sr ++
      synth_fixed O 950 26 "sine" (1 / 4) 0 0 amp sr) 52,
    mkVar "arp_chiptune" (synth_fixed O 500 18 "pulse" (1 / 4) 0 0 amp sr ++
      synth_fixed O 650 18 "pulse" (1 / 4) 0 0 amp sr ++
      synth_fixed O 820 18 "pulse" (1 / 4) 0 0 amp sr) 54,
    mkVar "ct_snes_pulse" (synth_fixed O 840 45 "pulse" (1 / 4) 0 0 (amp * (95 / 100)) sr) 45,
    mkVar "eb_snes_blip" (synth_fixed O 680 50 "triangle" 0 0 0 amp sr) 50,
    mkVar "ff6_snes_tri" (synth_fixed O 610 55 "triangle" 0 0 0 amp sr) 55,
    mkVar "pkmn_gb_square12" (synth_fixed O 980 60 "pulse" (1 / 8) 0 0 amp sr) 60,
    mkVar "dq_nes_square50" (synth_fixed O 440 45 "pulse" (1 / 2) 0 0 amp sr) 45,
    mkVar "fe_gba_click" (synth_noise O rng (pos + n1) 24 (1 / 10) (amp * (4 / 5)) sr ++
      synth_fixed O 800 18 "sine" 0 0 0 (amp * (3 / 4)) sr) 42,
    mkVar "gs_gba_saw" (synth_fixed O 720 55 "saw" 0 0 0 amp sr) 55,
    mkVar "pm_n64_chirp" (synth_sweep O 500 860 48 "sine" amp sr) 48,
    mkVar "ps4_gen_fm" (synth_fm O 600 2 (6 / 5) 55 amp sr) 55,
    mkVar "ut_default_blip" (synth_fixed O 760 36 "pulse" (1 / 4) 14 (5 / 100) amp sr) 36],
   pos + n1 + n2)

/-- The punctuation set `PUNCT = set(".!?;:")`. -/
def isPunct (c : Char) : Bool := c ∈ ['.', '!', '?', ';', ':']

/-- Truthiness of Python `ch.strip()` for a single character: `true`
iff the character is not whitespace (ASCII whitespace modelled). -/
def pyNonWs (c : Char) : Bool :=
  !(c ∈ [' ', '\t', '\n', '\x0b', '\x0c', '\r'])

/-- Loop of `schedule_beeps_for_line` from `blip.py` (`sched` in
`miniblip.py`, `schedule` in `ollamablip.py`): for each character,
record `int(t * sr)` when it is non-whitespace or whitespace is
included, then advance `t` by `step * punct_mult` for punctuation and
by `step` otherwise.  Returns the onset list and the final cursor. -/
def schedGo (step pm : ℚ) (ws : Bool) (sr : ℤ) : List Char → ℚ → List ℤ × ℚ
  | [], t => ([], t)
  | c :: cs, t =>
    let rest := schedGo step pm ws sr cs (t + step * (if isPunct c then pm else 1))
    (if pyNonWs c || ws then pyInt (t * (sr : ℚ)) :: rest.1 else rest.1, rest.2)

/-- `schedule_beeps_for_line(text, cps, punct_mult, include_whitespace,
grain_len, sr)` from `blip.py`: onset sample offsets plus the total
buffer length `int((t + grain_len/sr + 0.12) * sr) + 1`, with the
effective rate clamped via `step = 1.0 / max(1.0, cps)`. -/
def schedule_beeps_for_line (text : List Char) (cps punct_mult : ℚ)
    (include_whitespace : Bool) (grain_len sr : ℤ) : List ℤ × ℤ :=
  let step : ℚ := 1 / max 1 cps
  let r := schedGo step punct_mult include_whitespace sr text 0
  (r.1, pyInt ((r.2 + (grain_len : ℚ) / (sr : ℚ) + 12 / 100) * (sr : ℚ)) + 1)

/-- One pass of the inner `while j < j_end` loop of the renderer:
adds `grain[j - s0]` to `buf[j]` for every buffer index `j` with
`s0 <= j < s0 + len(grain)` (the `min(total_len, s0 + glen)` truncation
at the buffer end is realized because only existing indices of `buf`
are touched). -/
def addAt (buf : List ℚ) (s0 : ℤ) (grain : List ℚ) : List ℚ :=
  buf.mapIdx (fun j b =>
    if s0 ≤ (j : ℤ) ∧ (j : ℤ) < s0 + (grain.length : ℤ) then
      b + grain.getD ((j : ℤ) - s0).toNat 0
    else b)

/-- The per-line renderer (named `render_line` in `miniblip.py` and
`ollamablip.py`; the identical function in `blip.py` carries an
`_audio` suffix): schedule the line, accumulate the grain at every onset into a
zero buffer of the scheduled total length, and peak-limit the mix with
ceiling 0.95 and DC-block on. -/
def render_line (text : List Char) (var : Variation) (sr : ℤ)
    (cps punct_mult : ℚ) (include_whitespace : Bool) : List ℚ :=
  let grain := var.grain
  let r := schedule_beeps_for_line text cps punct_mult include_whitespace
    (grain.length : ℤ) sr
  let buf0 : List ℚ := List.replicate r.2.toNat 0
  limit_peak (r.1.foldl (fun buf s0 => addAt buf s0 grain) buf0) (95 / 100) true

/-- The mutable process state visible to the DSP layer: the global
`random` stream and its position (the only mutable global the synthesis
code touches), plus the selected configuration amplitude.  Used to
express state-independence (purity) of the renderer. -/
structure ProgState where
  rng : ℕ → ℚ
  rngPos : ℕ
  cfgAmp : ℚ

/-- State-passing embedding of `render_line`: the source's body
reads none of the mutable process state and writes none of it. -/
def render_line_st (st : ProgState) (text : List Char) (var : Variation)
    (sr : ℤ) (cps punct_mult : ℚ) (include_whitespace : Bool) :
    List ℚ × ProgState :=
  (render_line text var sr cps punct_mult include_whitespace, st)

/-- `pcm16_bytes` sample quantization from `blip.py` (`PCM16` in the
other files): `int(clamp(s) * 32767)`. -/
def pcm16_val (s : ℚ) : ℤ := pyInt (clampQ s * 32767)

/-- `struct.pack("<h", v)`: the two bytes of the signed 16-bit
little-endian encoding of `v` (low byte first, two's complement). -/
def toLE16 (v : ℤ) : List ℕ := [(v % 65536).toNat % 256, (v % 65536).toNat / 256]

/-- `pcm16_bytes(samples)` from `blip.py`: concatenation of the 16-bit
little-endian encodings of the quantized samples. -/
def pcm16_bytes (samples : List ℚ) : List ℕ :=
  samples.flatMap (fun s => toLE16 (pcm16_val s))

/-- An item of the `AudioWorker` queue in `ollamablip.py`: a text
fragment, or the `None` sentinel enqueued by `close()`. -/
inductive QItem where
  | frag (text : String)
  | sentinel
deriving DecidableEq

/-- The consumer loop of `AudioWorker.run` from `ollamablip.py`, viewed
at a loop-top resumption point: `while not self.stop:` pop the next
item; `None` breaks; otherwise render and play the fragment and loop.
Returns the fragments processed, in order, for a fixed value of the
`stop` flag (the flag is written only by `close()`); an empty queue
means the worker blocks with nothing further to process. -/
def workerLoop (stop : Bool) : List QItem → List String
  | [] => []
  | q :: rest =>
    if stop then []
    else
      match q with
      | QItem.sentinel => []
      | QItem.frag f => f :: workerLoop stop rest

/-- The worker's shared state: the `stop` flag and the pending queue. -/
structure WorkerState where
  stop : Bool
  queue : List QItem

/-- `AudioWorker.close` from `ollamablip.py`: set `stop` and enqueue
the `None` sentinel. -/
def workerClose (st : WorkerState) : WorkerState :=
  ⟨true, st.queue ++ [QItem.sentinel]⟩

/-- Fragments the worker processes when it resumes at the loop top in
state `st`. -/
def workerRun (st : WorkerState) : List String := workerLoop st.stop st.queue

/-- The per-character time advance of the scheduler, as described by
the specification: `step` for ordinary characters and
`step * punctuationMultiplier` for punctuation, with the rate clamp. -/
def charAdvance (cps pm : ℚ) (c : Char) : ℚ :=
  (1 / max 1 cps) * (if isPunct c then pm else 1)

/-- Specification-side running time cursors: the cursor value at each
character (before advancing for it), starting at 0. -/
def specCursors (cps pm : ℚ) (text : List Char) : List ℚ :=
  text.scanl (fun t c => t + charAdvance cps pm c) 0

/-- Specification-side final cursor `t_final`. -/
def specFinalCursor (cps pm : ℚ) (text : List Char) : ℚ :=
  text.foldl (fun t c => t + charAdvance cps pm c) 0

/-- Specification-side schedule, parameterized by the integer
conversion `rnd` applied to `t * sampleRate` and to the total length:
onsets for every sounded character from its own cursor value, total
length `rnd ((t_final + grainLength/sampleRate + 0.12) * sampleRate) + 1`.
With `rnd = roundQ` this is the claim's wording; with `rnd = pyInt` it
is the amended (truncating) version. -/
def specSchedule (rnd : ℚ → ℤ) (text : List Char) (cps pm : ℚ) (ws : Bool)
    (gl sr : ℤ) : List ℤ × ℤ :=
  (((text.zip (specCursors cps pm text)).filter
      (fun p => pyNonWs p.1 || ws)).map (fun p => rnd (p.2 * (sr : ℚ))),
   rnd ((specFinalCursor cps pm text + (gl : ℚ) / (sr : ℚ) + 12 / 100) * (sr : ℚ)) + 1)

/-- A concrete random stream: the first three draws return 0, all
later draws return 1/2 (used to exhibit the RNG-dependence of the
noise presets across two successive bank builds). -/
def cexRng : ℕ → ℚ := fun n => if n < 3 then 0 else 1 / 2

/-! Section: Basic lemmas about `pyInt` and `limit_peak` -/

theorem pyInt_of_nonneg {q : ℚ} (h : 0 ≤ q) : pyInt q = ⌊q⌋ := by
  simp [pyInt, not_lt.mpr h]

theorem pyInt_nonpos {q : ℚ} (h : q ≤ 0) : pyInt q ≤ 0 := by
  unfold pyInt
  split
  · exact Int.ceil_le.mpr (by exact_mod_cast h)
  · exact Int.floor_nonpos h

theorem pyInt_toNat_eq_zero {q : ℚ} (h : q ≤ 0) : (pyInt q).toNat = 0 :=
  Int.toNat_of_nonpos (pyInt_nonpos h)

theorem pyInt_nonneg {q : ℚ} (h : 0 ≤ q) : 0 ≤ pyInt q := by
  rw [pyInt_of_nonneg h]
  exact Int.floor_nonneg.mpr h

theorem le_foldr_max (l : List ℚ) (x : ℚ) (hx : x ∈ l) : x ≤ l.foldr max 0 := by
  induction l with
  | nil => cases hx
  | cons a l ih =>
    rcases List.mem_cons.mp hx with h | h
    · subst h; exact le_max_left _ _
    · exact le_trans (ih h) (le_max_right _ _)

theorem limit_peak_length (l : List ℚ) (c : ℚ) (dc : Bool) :
    (limit_peak l c dc).length = l.length := by
  unfold limit_peak
  split
  · rfl
  · dsimp only
    split <;> split <;> simp

theorem abs_le_of_mem_limit_peak (l : List ℚ) (c : ℚ) (dc : Bool)
    (hc : 0 ≤ c) (x : ℚ) (hx : x ∈ limit_peak l c dc) : |x| ≤ c := by
  unfold limit_peak at hx
  by_cases hl : l = []
  · simp [hl] at hx
  · rw [if_neg hl] at hx
    set s1 : List ℚ := if dc then
        l.map (fun s => s - l.sum / (l.length : ℚ)) else l with hs1
    set fm : ℚ := (s1.map (fun s => |s|)).foldr max 0 with hfm
    set peak : ℚ := max ((1 : ℚ) / 10 ^ 12) fm with hpeak
    have hpeak_pos : 0 < peak := lt_of_lt_of_le (by norm_num) (le_max_left _ _)
    have hmem_le : ∀ y ∈ s1, |y| ≤ peak := by
      intro y hy
      refine le_trans (le_foldr_max _ _ ?_) (le_max_right _ _)
      exact List.mem_map.mpr ⟨y, hy, rfl⟩
    by_cases hgt : peak > c
    · rw [if_pos hgt] at hx
      rcases List.mem_map.mp hx with ⟨y, hy, rfl⟩
      have h1 : |y * (c / peak)| = |y| * (c / peak) := by
        rw [abs_mul, abs_of_nonneg (div_nonneg hc hpeak_pos.le)]
      rw [h1]
      calc |y| * (c / peak) ≤ peak * (c / peak) :=
            mul_le_mul_of_nonneg_right (hmem_le y hy) (div_nonneg hc hpeak_pos.le)
        _ = c := by rw [mul_comm, div_mul_cancel₀ _ (ne_of_gt hpeak_pos)]
    · rw [if_neg hgt] at hx
      exact le_trans (hmem_le x hx) (not_lt.mp hgt)

/-! Section: Length lemmas for the grain synthesizers -/

theorem fixedGo_length (O : TrigOracle) (freq duty vr vd amp : ℚ) (sr : ℤ)
    (wf : String) (n : ℕ) : ∀ (fuel i : ℕ) (ph : ℚ),
    (fixedGo O freq duty vr vd amp sr wf n i fuel ph).length = fuel := by
  intro fuel
  induction fuel with
  | zero => intro i ph; rfl
  | succ k ih => intro i ph; simp only [fixedGo, List.length_cons, ih]

theorem sweepGo_length (O : TrigOracle) (f0 f1 amp : ℚ) (sr : ℤ)
    (wf : String) (n : ℕ) : ∀ (fuel i : ℕ) (ph : ℚ),
    (sweepGo O f0 f1 amp sr wf n i fuel ph).length = fuel := by
  intro fuel
  induction fuel with
  | zero => intro i ph; rfl
  | succ k ih => intro i ph; simp only [sweepGo, List.length_cons, ih]

theorem noiseGo_length (O : TrigOracle) (rng : ℕ → ℚ) (pos : ℕ)
    (a amp : ℚ) (n : ℕ) : ∀ (fuel i : ℕ) (y : ℚ),
    (noiseGo O rng pos a amp n i fuel y).length = fuel := by
  intro fuel
  induction fuel with
  | zero => intro i y; rfl
  | succ k ih => intro i y; simp only [noiseGo, List.length_cons, ih]

theorem synth_fixed_length (O : TrigOracle) (f ms : ℚ) (wf : String)
    (du vr vd amp : ℚ) (sr : ℤ) :
    (synth_fixed O f ms wf du vr vd amp sr).length =
      (pyInt ((sr : ℚ) * (ms / 1000))).toNat := by
  unfold synth_fixed
  exact fixedGo_length _ _ _ _ _ _ _ _ _ _ _ _

theorem synth_sweep_length (O : TrigOracle) (f0 f1 ms : ℚ) (wf : String)
    (amp : ℚ) (sr : ℤ) :
    (synth_sweep O f0 f1 ms wf amp sr).length =
      (pyInt ((sr : ℚ) * (ms / 1000))).toNat := by
  unfold synth_sweep
  exact sweepGo_length _ _ _ _ _ _ _ _ _ _

theorem synth_noise_length (O : TrigOracle) (rng : ℕ → ℚ) (pos : ℕ)
    (ms a amp : ℚ) (sr : ℤ) :
    (synth_noise O rng pos ms a amp sr).length =
      (pyInt ((sr : ℚ) * (ms / 1000))).toNat := by
  unfold synth_noise
  exact noiseGo_length _ _ _ _ _ _ _ _ _

theorem synth_fm_length (O : TrigOracle) (fc mr idx ms amp : ℚ) (sr : ℤ) :
    (synth_fm O fc mr idx ms amp sr).length =
      (pyInt ((sr : ℚ) * (ms / 1000))).toNat := by
  simp [synth_fm]

/-! Section: Empty grains for non-positive parameters -/

theorem synthLen_zero {ms : ℚ} {sr : ℤ}
    (h : (ms ≤ 0 ∧ 0 ≤ sr) ∨ (sr ≤ 0 ∧ 0 ≤ ms)) :
    (pyInt ((sr : ℚ) * (ms / 1000))).toNat = 0 := by
  apply pyInt_toNat_eq_zero
  rcases h with ⟨hms, hsr⟩ | ⟨hsr, hms⟩
  · have h1 : ms / 1000 ≤ 0 := by linarith
    have h2 : (0 : ℚ) ≤ (sr : ℚ) := by exact_mod_cast hsr
    exact mul_nonpos_iff.mpr (Or.inl ⟨h2, h1⟩)
  · have h1 : (0 : ℚ) ≤ ms / 1000 := by linarith
    have h2 : (sr : ℚ) ≤ 0 := by exact_mod_cast hsr
    exact mul_nonpos_iff.mpr (Or.inr ⟨h2, h1⟩)

theorem synth_fixed_nil (O : TrigOracle) (f : ℚ) (wf : String)
    (du vr vd amp : ℚ) {ms : ℚ} {sr : ℤ}
    (h : (ms ≤ 0 ∧ 0 ≤ sr) ∨ (sr ≤ 0 ∧ 0 ≤ ms)) :
    synth_fixed O f ms wf du vr vd amp sr = [] := by
  unfold synth_fixed
  rw [synthLen_zero h]
  rfl

theorem synth_sweep_nil (O : TrigOracle) (f0 f1 : ℚ) (wf : String)
    (amp : ℚ) {ms : ℚ} {sr : ℤ}
    (h : (ms ≤ 0 ∧ 0 ≤ sr) ∨ (sr ≤ 0 ∧ 0 ≤ ms)) :
    synth_sweep O f0 f1 ms wf amp sr = [] := by
  unfold synth_sweep
  rw [synthLen_zero h]
  rfl

theorem synth_noise_nil (O : TrigOracle) (rng : ℕ → ℚ) (pos : ℕ)
    (a amp : ℚ) {ms : ℚ} {sr : ℤ}
    (h : (ms ≤ 0 ∧ 0 ≤ sr) ∨ (sr ≤ 0 ∧ 0 ≤ ms)) :
    synth_noise O rng pos ms a amp sr = [] := by
  unfold synth_noise
  rw [synthLen_zero h]
  rfl

theorem synth_fm_nil (O : TrigOracle) (fc mr idx amp : ℚ) {ms : ℚ} {sr : ℤ}
    (h : (ms ≤ 0 ∧ 0 ≤ sr) ∨ (sr ≤ 0 ∧ 0 ≤ ms)) :
    synth_fm O fc mr idx ms amp sr = [] := by
  unfold synth_fm
  rw [synthLen_zero h]
  rfl

/-! Section: The scheduler loop: closed form and cursor monotonicity -/

theorem schedGo_nil (step pm : ℚ) (ws : Bool) (sr : ℤ) (t : ℚ) :
    schedGo step pm ws sr [] t = ([], t) := rfl

theorem schedGo_cons (step pm : ℚ) (ws : Bool) (sr : ℤ) (c : Char)
    (cs : List Char) (t : ℚ) :
    schedGo step pm ws sr (c :: cs) t =
      (if pyNonWs c || ws then
          pyInt (t * (sr : ℚ)) ::
            (schedGo step pm ws sr cs (t + step * (if isPunct c then pm else 1))).1
        else (schedGo step pm ws sr cs (t + step * (if isPunct c then pm else 1))).1,
       (schedGo step pm ws sr cs (t + step * (if isPunct c then pm else 1))).2) := by
  simp only [schedGo]

theorem schedGo_eq_spec (step pm : ℚ) (ws : Bool) (sr : ℤ) :
    ∀ (cs : List Char) (t : ℚ),
    schedGo step pm ws sr cs t =
      (((cs.zip (cs.scanl (fun u c => u + step * (if isPunct c then pm else 1)) t)).filter
          (fun p => pyNonWs p.1 || ws)).map (fun p => pyInt (p.2 * (sr : ℚ))),
       cs.foldl (fun u c => u + step * (if isPunct c then pm else 1)) t) := by
  intro cs
  induction cs with
  | nil => intro t; rfl
  | cons c cs ih =>
    intro t
    rw [schedGo_cons, ih]
    rw [List.scanl_cons]
    simp only [List.singleton_append, List.zip_cons_cons, List.filter_cons,
      List.foldl_cons]
    by_cases hc : (pyNonWs c || ws) = true
    · simp [hc]
    · simp [hc]

theorem schedGo_final_ge (step pm : ℚ) (ws : Bool) (sr : ℤ)
    (hstep : 0 ≤ step) (hpm : 0 ≤ pm) :
    ∀ (cs : List Char) (t : ℚ), t ≤ (schedGo step pm ws sr cs t).2 := by
  intro cs
  induction cs with
  | nil => intro t; exact le_refl t
  | cons c cs ih =>
    intro t
    rw [schedGo_cons]
    have hadv : 0 ≤ step * (if isPunct c then pm else 1) := by
      apply mul_nonneg hstep
      split
      · exact hpm
      · exact zero_le_one
    exact le_trans (le_add_of_nonneg_right hadv) (ih _)

theorem schedGo_onset_bounds (step pm : ℚ) (ws : Bool) (sr : ℤ)
    (hstep : 0 ≤ step) (hpm : 0 ≤ pm) (hsr : (0 : ℚ) ≤ (sr : ℚ)) :
    ∀ (cs : List Char) (t : ℚ), 0 ≤ t →
      ∀ x ∈ (schedGo step pm ws sr cs t).1,
        ⌊t * (sr : ℚ)⌋ ≤ x ∧ x ≤ ⌊(schedGo step pm ws sr cs t).2 * (sr : ℚ)⌋ := by
  intro cs
  induction cs with
  | nil => intro t ht x hx; cases hx
  | cons c cs ih =>
    intro t ht x hx
    rw [schedGo_cons] at hx ⊢
    have hadv : 0 ≤ step * (if isPunct c then pm else 1) := by
      apply mul_nonneg hstep
      split
      · exact hpm
      · exact zero_le_one
    have ht' : 0 ≤ t + step * (if isPunct c then pm else 1) :=
      add_nonneg ht hadv
    have hmono : ⌊t * (sr : ℚ)⌋ ≤
        ⌊(t + step * (if isPunct c then pm else 1)) * (sr : ℚ)⌋ :=
      Int.floor_le_floor
        (mul_le_mul_of_nonneg_right (le_add_of_nonneg_right hadv) hsr)
    by_cases hc : (pyNonWs c || ws) = true
    · rw [if_pos hc] at hx
      rcases List.mem_cons.mp hx with h | h
      · subst h
        constructor
        · rw [pyInt_of_nonneg (mul_nonneg ht hsr)]
        · rw [pyInt_of_nonneg (mul_nonneg ht hsr)]
          apply Int.floor_le_floor
          apply mul_le_mul_of_nonneg_right _ hsr
          exact le_trans (le_add_of_nonneg_right hadv)
            (schedGo_final_ge step pm ws sr hstep hpm cs _)
      · rcases ih _ ht' x h with ⟨h1, h2⟩
        exact ⟨le_trans hmono h1, h2⟩
    · rw [if_neg hc] at hx
      rcases ih _ ht' x hx with ⟨h1, h2⟩
      exact ⟨le_trans hmono h1, h2⟩

theorem schedGo_chain (step pm : ℚ) (ws : Bool) (sr : ℤ)
    (hstep : 0 ≤ step) (hpm : 0 ≤ pm) (hsr : (0 : ℚ) ≤ (sr : ℚ)) :
    ∀ (cs : List Char) (t : ℚ), 0 ≤ t →
      List.Chain' (· ≤ ·) (schedGo step pm ws sr cs t).1 := by
  intro cs
  induction cs with
  | nil => intro t ht; exact List.chain'_nil
  | cons c cs ih =>
    intro t ht
    rw [schedGo_cons]
    have hadv : 0 ≤ step * (if isPunct c then pm else 1) := by
      apply mul_nonneg hstep
      split
      · exact hpm
      · exact zero_le_one
    have ht' : 0 ≤ t + step * (if isPunct c then pm else 1) :=
      add_nonneg ht hadv
    by_cases hc : (pyNonWs c || ws) = true
    · rw [if_pos hc]
      refine List.chain'_cons'.mpr ⟨?_, ih _ ht'⟩
      intro y hy
      have hmem : y ∈ (schedGo step pm ws sr cs
          (t + step * (if isPunct c then pm else 1))).1 :=
        List.mem_of_mem_head? hy
      have h1 := (schedGo_onset_bounds step pm ws sr hstep hpm hsr cs _ ht' y hmem).1
      have hmono : ⌊t * (sr : ℚ)⌋ ≤
          ⌊(t + step * (if isPunct c then pm else 1)) * (sr : ℚ)⌋ :=
        Int.floor_le_floor
          (mul_le_mul_of_nonneg_right (le_add_of_nonneg_right hadv) hsr)
      rw [pyInt_of_nonneg (mul_nonneg ht hsr)]
      exact le_trans hmono h1
    · rw [if_neg hc]
      exact ih _ ht'

/-! Section: Claim C1: onset and total-length formulas of the scheduler -/

/-- Claim C1 (amended): for every text line, chars-per-second rate,
punctuation multiplier, whitespace flag, grain length and sample rate,
the line scheduler records each onset as `int(t * sampleRate)`
(Python truncation, not rounding), where `t` is the running time cursor
at that character (recorded before advancing time for it), and returns
a total buffer length `int((t_final + grainLength/sampleRate + 0.12) *
sampleRate) + 1`.  Stated as equality with the independently written
specification-side schedule `specSchedule pyInt`. -/
theorem C1_schedule_closed_form (text : List Char) (cps pm : ℚ) (ws : Bool)
    (gl sr : ℤ) :
    schedule_beeps_for_line text cps pm ws gl sr =
      specSchedule pyInt text cps pm ws gl sr := by
  simp only [schedule_beeps_for_line, specSchedule, specCursors, specFinalCursor]
  rw [schedGo_eq_spec]
  simp only [charAdvance]

/-- Claim C1, counterexample to the claim as stated: with text "aa",
cps = 5, punctuationMultiplier = 1, includeWhitespace = false,
grainLength = 0 and sampleRate = 8, the code's schedule differs from
the claimed rounding schedule: the second onset is `int(1.6) = 1`,
while `round(1.6) = 2`. -/
theorem C1_counterexample :
    schedule_beeps_for_line ['a', 'a'] 5 1 false 0 8 ≠
      specSchedule roundQ ['a', 'a'] 5 1 false 0 8 := by
  have hL : schedule_beeps_for_line ['a', 'a'] 5 1 false 0 8 = ([0, 1], 5) := by
    simp [schedule_beeps_for_line, schedGo, isPunct, pyNonWs]
    norm_num [pyInt, max_def]
  have hR : specSchedule roundQ ['a', 'a'] 5 1 false 0 8 = ([0, 2], 5) := by
    simp [specSchedule, specCursors, specFinalCursor, charAdvance, isPunct,
      pyNonWs, List.scanl_cons, List.scanl_nil]
    norm_num [roundQ, max_def]
  rw [hL, hR]
  simp

/-! Section: Claim C2: punctuation pacing -/

/-- Claim C2: a punctuation character advances the time cursor by
`step * punctuationMultiplier` instead of `step`, delaying the
following character's onset but not the punctuation mark's own onset
(the punctuation's onset comes from the cursor value before the
advance, and the rest of the line is scheduled from the advanced
cursor); concretely, for text "a.b" with cps = 10,
punctuationMultiplier = 2, includeWhitespace = false and
sampleRate = 1000, the onsets are sample 0 for 'a', sample 100 for '.'
and exactly sample 300 for 'b'. -/
theorem C2_punctuation_pause :
    (∀ gl : ℤ,
      (schedule_beeps_for_line ['a', '.', 'b'] 10 2 false gl 1000).1 =
        [0, 100, 300]) ∧
    ∀ (step pm : ℚ) (ws : Bool) (sr : ℤ) (c : Char) (cs : List Char) (t : ℚ),
      isPunct c = true →
      (schedGo step pm ws sr (c :: cs) t).1 =
        (if pyNonWs c || ws then [pyInt (t * (sr : ℚ))] else []) ++
          (schedGo step pm ws sr cs (t + step * pm)).1 ∧
      (schedGo step pm ws sr (c :: cs) t).2 =
        (schedGo step pm ws sr cs (t + step * pm)).2 := by
  constructor
  · intro gl
    simp [schedule_beeps_for_line, schedGo, isPunct, pyNonWs]
    norm_num [pyInt, max_def]
  · intro step pm ws sr c cs t hc
    rw [schedGo_cons, hc]
    constructor
    · by_cases hk : (pyNonWs c || ws) = true
      · simp [hk]
      · simp [hk]
    · simp

/-- Witness for claim C2 at concrete inputs (grain length 7; and the
punctuation step applied to '.' before "b" from cursor 0 with
step = 3, multiplier = 2, sample rate 5). -/
theorem C2_witness :
    (schedule_beeps_for_line ['a', '.', 'b'] 10 2 false 7 1000).1 =
        [0, 100, 300] ∧
    ((schedGo 3 2 false 5 ['.', 'b'] 0).1 =
        (if pyNonWs '.' || false then [pyInt (0 * ((5 : ℤ) : ℚ))] else []) ++
          (schedGo 3 2 false 5 ['b'] (0 + 3 * 2)).1 ∧
      (schedGo 3 2 false 5 ['.', 'b'] 0).2 =
        (schedGo 3 2 false 5 ['b'] (0 + 3 * 2)).2) :=
  ⟨C2_punctuation_pause.1 7,
   C2_punctuation_pause.2 3 2 false 5 '.' ['b'] 0 (by decide)⟩

/-! Section: Claim C5: monotone onsets and the total-length bound -/

/-- Claim C5 (amended): for every input text, whenever the settings are
in the intended range — punctuation multiplier nonnegative, sample
rate at least 9 (so that the 0.12 s tail is at least one sample; the
menus only allow 8000–192000), grain length nonnegative — the onset
list is non-decreasing and every onset is strictly less than
`totalLengthSamples - 1`. -/
theorem C5_schedule_invariant (text : List Char) (cps pm : ℚ) (ws : Bool)
    (gl sr : ℤ) (hpm : 0 ≤ pm) (hsr : 9 ≤ sr) (hgl : 0 ≤ gl) :
    List.Chain' (· ≤ ·) (schedule_beeps_for_line text cps pm ws gl sr).1 ∧
    ∀ x ∈ (schedule_beeps_for_line text cps pm ws gl sr).1,
      x < (schedule_beeps_for_line text cps pm ws gl sr).2 - 1 := by
  have hmax : (1 : ℚ) ≤ max 1 cps := le_max_left _ _
  have hstep : 0 ≤ 1 / max 1 cps :=
    le_of_lt (one_div_pos.mpr (lt_of_lt_of_le one_pos hmax))
  have hsrZ : (0 : ℤ) ≤ sr := le_trans (by norm_num) hsr
  have hsrQ : (0 : ℚ) ≤ (sr : ℚ) := by exact_mod_cast hsrZ
  have hsrQ9 : (9 : ℚ) ≤ (sr : ℚ) := by exact_mod_cast hsr
  have hsrne : (sr : ℚ) ≠ 0 := by positivity
  simp only [schedule_beeps_for_line]
  constructor
  · exact schedGo_chain _ pm ws sr hstep hpm hsrQ text 0 le_rfl
  · intro x hx
    have hb := schedGo_onset_bounds _ pm ws sr hstep hpm hsrQ text 0 le_rfl x hx
    set tf : ℚ := (schedGo (1 / max 1 cps) pm ws sr text 0).2 with htf
    have htf0 : (0 : ℚ) ≤ tf :=
      schedGo_final_ge _ pm ws sr hstep hpm text 0
    have hglQ : (0 : ℚ) ≤ (gl : ℚ) := by exact_mod_cast hgl
    have harg_eq : (tf + (gl : ℚ) / (sr : ℚ) + 12 / 100) * (sr : ℚ) =
        tf * (sr : ℚ) + (gl : ℚ) + (12 / 100) * (sr : ℚ) := by
      rw [add_mul, add_mul, div_mul_cancel₀ _ hsrne]
    have harg_nonneg : 0 ≤ (tf + (gl : ℚ) / (sr : ℚ) + 12 / 100) * (sr : ℚ) := by
      rw [harg_eq]
      have h1 : 0 ≤ tf * (sr : ℚ) := mul_nonneg htf0 hsrQ
      have h2 : 0 ≤ (12 / 100 : ℚ) * (sr : ℚ) := by positivity
      linarith
    have htail : (1 : ℚ) ≤ (12 / 100) * (sr : ℚ) := by linarith
    have harg_ge : tf * (sr : ℚ) + 1 ≤
        (tf + (gl : ℚ) / (sr : ℚ) + 12 / 100) * (sr : ℚ) := by
      rw [harg_eq]; linarith
    have hfl : ⌊tf * (sr : ℚ)⌋ + 1 ≤
        ⌊(tf + (gl : ℚ) / (sr : ℚ) + 12 / 100) * (sr : ℚ)⌋ := by
      have := Int.floor_le_floor harg_ge
      rwa [Int.floor_add_one] at this
    rw [pyInt_of_nonneg harg_nonneg]
    have hx2 := hb.2
    omega

/-- Witness for claim C5 at a concrete input: text "a", cps = 26,
punctuation multiplier 2, whitespace off, grain length 0, sample
rate 9. -/
theorem C5_witness :
    List.Chain' (· ≤ ·) (schedule_beeps_for_line ['a'] 26 2 false 0 9).1 ∧
    ∀ x ∈ (schedule_beeps_for_line ['a'] 26 2 false 0 9).1,
      x < (schedule_beeps_for_line ['a'] 26 2 false 0 9).2 - 1 :=
  C5_schedule_invariant ['a'] 26 2 false 0 9 (by decide) (by decide) (by decide)

/-- Claim C5, counterexample to the claim as stated (quantified over
all settings): with text "a", cps = 1000, punctuation multiplier 2,
whitespace off, grain length 0 and sample rate 8, the single onset is
sample 0 but the total length is 1, so `0 < totalLength - 1` fails. -/
theorem C5_counterexample :
    ¬ ∀ x ∈ (schedule_beeps_for_line ['a'] 1000 2 false 0 8).1,
        x < (schedule_beeps_for_line ['a'] 1000 2 false 0 8).2 - 1 := by
  have hs : schedule_beeps_for_line ['a'] 1000 2 false 0 8 = ([0], 1) := by
    simp [schedule_beeps_for_line, schedGo, isPunct, pyNonWs]
    norm_num [pyInt, max_def]
  intro h
  rw [hs] at h
  have h0 := h 0 (List.mem_singleton.mpr rfl)
  omega

/-! Section: Claim C3: grain lengths and preset concatenation -/

theorem pyInt_44100_18 : pyInt ((44100 : ℚ) * (18 / 1000)) = 793 := by
  have h : ((44100 : ℚ) * (18 / 1000)) = 3969 / 5 := by norm_num
  rw [h, pyInt_of_nonneg (by norm_num)]
  norm_num

theorem arp_grain_length (O : TrigOracle) (rng : ℕ → ℚ) (pos : ℕ) (amp : ℚ) :
    ((build_variations O rng pos amp 44100).1.get? 9).map
      (fun v => v.grain.length) = some 2379 := by
  have h9 : (build_variations O rng pos amp 44100).1.get? 9 =
      some (mkVar "arp_chiptune"
        (synth_fixed O 500 18 "pulse" (1 / 4) 0 0 amp 44100 ++
         synth_fixed O 650 18 "pulse" (1 / 4) 0 0 amp 44100 ++
         synth_fixed O 820 18 "pulse" (1 / 4) 0 0 amp 44100) 54) := rfl
  rw [h9, Option.map_some']
  have hint : (((44100 : ℤ) : ℚ) * (18 / 1000)) = (44100 : ℚ) * (18 / 1000) := by
    norm_num
  simp only [mkVar, limit_peak_length, List.length_append, synth_fixed_length,
    hint, pyInt_44100_18]
  rfl

/-- Claim C3 (amended): each of the four grain synthesizers returns a
sample sequence of length `int(sampleRate * durationMs / 1000)`
(Python truncation, not rounding); multi-tone presets are plain
sequence concatenation (the arpeggio preset is the concatenation of
three 18 ms fixed-tone grains, peak-limited as a whole); at sample
rate 44100 the arpeggio grain has total length
`3 * int(44100 * 18 / 1000) = 3 * 793 = 2379` samples. -/
theorem C3_grain_lengths :
    (∀ (O : TrigOracle) (f ms : ℚ) (wf : String) (du vr vd amp : ℚ) (sr : ℤ),
      (synth_fixed O f ms wf du vr vd amp sr).length =
        (pyInt ((sr : ℚ) * (ms / 1000))).toNat) ∧
    (∀ (O : TrigOracle) (f0 f1 ms : ℚ) (wf : String) (amp : ℚ) (sr : ℤ),
      (synth_sweep O f0 f1 ms wf amp sr).length =
        (pyInt ((sr : ℚ) * (ms / 1000))).toNat) ∧
    (∀ (O : TrigOracle) (rng : ℕ → ℚ) (pos : ℕ) (ms a amp : ℚ) (sr : ℤ),
      (synth_noise O rng pos ms a amp sr).length =
        (pyInt ((sr : ℚ) * (ms / 1000))).toNat) ∧
    (∀ (O : TrigOracle) (fc mr idx ms amp : ℚ) (sr : ℤ),
      (synth_fm O fc mr idx ms amp sr).length =
        (pyInt ((sr : ℚ) * (ms / 1000))).toNat) ∧
    (∀ (O : TrigOracle) (rng : ℕ → ℚ) (pos : ℕ) (amp : ℚ) (sr : ℤ),
      (build_variations O rng pos amp sr).1.get? 9 =
        some (mkVar "arp_chiptune"
          (synth_fixed O 500 18 "pulse" (1 / 4) 0 0 amp sr ++
           synth_fixed O 650 18 "pulse" (1 / 4) 0 0 amp sr ++
           synth_fixed O 820 18 "pulse" (1 / 4) 0 0 amp sr) 54)) ∧
    (∀ (O : TrigOracle) (rng : ℕ → ℚ) (pos : ℕ) (amp : ℚ),
      ((build_variations O rng pos amp 44100).1.get? 9).map
        (fun v => v.grain.length) = some (3 * 793)) := by
  refine ⟨synth_fixed_length, synth_sweep_length, synth_noise_length,
    synth_fm_length, fun O rng pos amp sr => rfl, fun O rng pos amp => ?_⟩
  rw [arp_grain_length]

/-- Claim C3, counterexample to the claim as stated: the arpeggio
preset at sample rate 44100 has 2379 samples, but the claimed formula
`3 * round(44100 * 18 / 1000)` gives `3 * 794 = 2382`. -/
theorem C3_counterexample :
    ((build_variations O0 (fun _ => 0) 0 (6 / 25) 44100).1.get? 9).map
        (fun v => v.grain.length) = some 2379 ∧
    3 * roundQ ((44100 : ℚ) * (18 / 1000)) = 2382 ∧ (2379 : ℤ) ≠ 2382 := by
  refine ⟨arp_grain_length O0 (fun _ => 0) 0 (6 / 25), ?_, by decide⟩
  have h : ((44100 : ℚ) * (18 / 1000)) = 3969 / 5 := by norm_num
  rw [h]
  norm_num [roundQ]

/-! Section: Claim C8: behavior on non-positive duration or sample rate -/

/-- Claim C8 (amended): for a non-positive duration (with nonnegative
sample rate) or a non-positive sample rate (with nonnegative duration),
grain synthesis does not fail at all: every synthesizer silently
returns an empty grain (`n = int(sr * dur_ms / 1000)` is not positive,
so the sample loop body never runs), rather than raising a
parameter-validation error. -/
theorem C8_invalid_params_silent (O : TrigOracle) (rng : ℕ → ℚ) (pos : ℕ)
    (f f0 f1 : ℚ) (wf : String) (du vr vd a amp fc mr idx ms : ℚ) (sr : ℤ)
    (h : (ms ≤ 0 ∧ 0 ≤ sr) ∨ (sr ≤ 0 ∧ 0 ≤ ms)) :
    synth_fixed O f ms wf du vr vd amp sr = [] ∧
    synth_sweep O f0 f1 ms wf amp sr = [] ∧
    synth_noise O rng pos ms a amp sr = [] ∧
    synth_fm O fc mr idx ms amp sr = [] :=
  ⟨synth_fixed_nil O f wf du vr vd amp h, synth_sweep_nil O f0 f1 wf amp h,
   synth_noise_nil O rng pos a amp h, synth_fm_nil O fc mr idx amp h⟩

/-- Witness for claim C8 at a concrete input (duration 0 ms, sample
rate 48000). -/
theorem C8_witness :
    synth_fixed O0 7 0 "sine" 1 0 0 1 48000 = [] ∧
    synth_sweep O0 1 2 0 "sine" 1 48000 = [] ∧
    synth_noise O0 (fun _ => 0) 0 0 1 1 48000 = [] ∧
    synth_fm O0 3 1 1 0 1 48000 = [] :=
  C8_invalid_params_silent O0 (fun _ => 0) 0 7 1 2 "sine" 1 0 0 1 1 3 1 1 0
    48000 (Or.inl ⟨by decide, by decide⟩)

/-- Claim C8, counterexample to the claim as stated: at duration
-5 ms and sample rate 44100 (an invalid configuration), `synth_fixed`
does not raise any parameter-validation error; it silently returns a
grain (the empty sample list). -/
theorem C8_counterexample :
    synth_fixed O0 820 (-5) "pulse" (1 / 4) 0 0 (6 / 25) 44100 = [] :=
  synth_fixed_nil O0 820 "pulse" (1 / 4) 0 0 (6 / 25)
    (Or.inl ⟨by decide, by decide⟩)

/-! Section: Claim C4: peak bound of the rendered line -/

theorem abs_le_of_mem_render (text : List Char) (var : Variation) (sr : ℤ)
    (cps pm : ℚ) (ws : Bool) (x : ℚ)
    (hx : x ∈ render_line text var sr cps pm ws) : |x| ≤ 95 / 100 := by
  simp only [render_line] at hx
  exact abs_le_of_mem_limit_peak _ _ _ (by norm_num) x hx

/-- Claim C4: for every text, grain and pacing settings, every sample
of the buffer returned by the line renderer satisfies
`|sample| ≤ 0.95` after limiting (hence `≤ 0.95 + ε` for every
`ε ≥ 0`): the limiter first subtracts the arithmetic mean when
DC-block is requested, then scales the whole sequence by
`ceiling / peak` only if the peak exceeds the ceiling, and returns
empty input unchanged. -/
theorem C4_peak_bound (text : List Char) (var : Variation) (sr : ℤ)
    (cps pm : ℚ) (ws : Bool) :
    (∀ i : ℕ, |(render_line text var sr cps pm ws).getD i 0| ≤ 95 / 100) ∧
    (∀ (c : ℚ) (dc : Bool), limit_peak [] c dc = []) := by
  constructor
  · intro i
    by_cases hi : i < (render_line text var sr cps pm ws).length
    · exact abs_le_of_mem_render text var sr cps pm ws _
        ((List.getD_eq_getElem _ _ hi) ▸ List.getElem_mem hi)
    · rw [List.getD_eq_default _ _ (le_of_not_lt hi)]
      norm_num
  · intro c dc
    rfl

/-! Section: Claim C6: determinism / state-independence of the renderer -/

/-- Claim C6: the line renderer is deterministic and referentially
transparent: threading the mutable process state through two
successive calls with the same `(text, grain, sampleRate, cps,
punctuationMultiplier, includeWhitespace)` yields identical buffers,
the call leaves the process state unchanged, and the output does not
depend on the ambient state at all. -/
theorem C6_render_deterministic (st : ProgState) (text : List Char)
    (var : Variation) (sr : ℤ) (cps pm : ℚ) (ws : Bool) :
    (render_line_st st text var sr cps pm ws).1 =
      (render_line_st ((render_line_st st text var sr cps pm ws).2)
        text var sr cps pm ws).1 ∧
    (render_line_st st text var sr cps pm ws).2 = st ∧
    ∀ st2 : ProgState,
      (render_line_st st text var sr cps pm ws).1 =
        (render_line_st st2 text var sr cps pm ws).1 :=
  ⟨rfl, rfl, fun _ => rfl⟩

/-! Section: Claim C7: determinism of the variation bank -/

theorem noiseGo_zero (O : TrigOracle) (rng : ℕ → ℚ) (pos : ℕ) (a amp : ℚ)
    (n i : ℕ) (y : ℚ) : noiseGo O rng pos a amp n i 0 y = [] := rfl

theorem noiseGo_succ (O : TrigOracle) (rng : ℕ → ℚ) (pos : ℕ) (a amp : ℚ)
    (n i fuel : ℕ) (y : ℚ) :
    noiseGo O rng pos a amp n i (fuel + 1) y =
      (a * (rng (pos + i) * 2 - 1) + (1 - a) * y) * hann_env O i n * amp ::
        noiseGo O rng pos a amp n (i + 1) fuel
          (a * (rng (pos + i) * 2 - 1) + (1 - a) * y) := rfl

theorem noiseGo_congr (O : TrigOracle) (rng1 rng2 : ℕ → ℚ) (p1 p2 : ℕ)
    (a amp : ℚ) (n : ℕ) :
    ∀ (fuel i : ℕ) (y : ℚ),
      (∀ k, i ≤ k → k < i + fuel → rng1 (p1 + k) = rng2 (p2 + k)) →
      noiseGo O rng1 p1 a amp n i fuel y = noiseGo O rng2 p2 a amp n i fuel y := by
  intro fuel
  induction fuel with
  | zero => intro i y h; rfl
  | succ m ih =>
    intro i y h
    rw [noiseGo_succ, noiseGo_succ, h i le_rfl (by omega)]
    exact congrArg (List.cons _) (ih (i + 1) _ (fun k hk1 hk2 => h k (by omega) (by omega)))

theorem synth_noise_congr (O : TrigOracle) (rng1 rng2 : ℕ → ℚ) (p1 p2 : ℕ)
    (ms a amp : ℚ) (sr : ℤ)
    (h : ∀ k < noiseDraws ms sr, rng1 (p1 + k) = rng2 (p2 + k)) :
    synth_noise O rng1 p1 ms a amp sr = synth_noise O rng2 p2 ms a amp sr := by
  simp only [synth_noise]
  exact noiseGo_congr O rng1 rng2 p1 p2 a amp _ _ 0 0
    (fun k hk1 hk2 => h k (by simpa [noiseDraws] using hk2))

/-- Claim C7 (amended): building the Variation Bank is deterministic
given the synthesis parameters and the consumed random draws: for
fixed (amplitude, sampleRate), two builds produce identical grains for
every one of the 20 named presets whenever the random stream values
they consume coincide.  (In the source, the two noise-based presets
read the global unseeded `random` stream, so two successive builds are
not unconditionally identical; all other 18 presets are.) -/
theorem C7_bank_deterministic (O : TrigOracle) (rng1 rng2 : ℕ → ℚ)
    (p1 p2 : ℕ) (amp : ℚ) (sr : ℤ)
    (h : ∀ k < noiseDraws 40 sr + noiseDraws 24 sr,
      rng1 (p1 + k) = rng2 (p2 + k)) :
    (build_variations O rng1 p1 amp sr).1 =
      (build_variations O rng2 p2 amp sr).1 := by
  have h1 : synth_noise O rng1 p1 40 (22 / 100) (amp * (9 / 10)) sr =
      synth_noise O rng2 p2 40 (22 / 100) (amp * (9 / 10)) sr :=
    synth_noise_congr O rng1 rng2 p1 p2 40 (22 / 100) (amp * (9 / 10)) sr
      (fun k hk => h k (by omega))
  have h2 : synth_noise O rng1 (p1 + noiseDraws 40 sr) 24 (1 / 10)
        (amp * (4 / 5)) sr =
      synth_noise O rng2 (p2 + noiseDraws 40 sr) 24 (1 / 10)
        (amp * (4 / 5)) sr := by
    apply synth_noise_congr
    intro k hk
    have h3 := h (noiseDraws 40 sr + k) (by omega)
    rwa [← Nat.add_assoc, ← Nat.add_assoc] at h3
  simp only [build_variations, h1, h2]

/-- Witness for claim C7: both builds read the all-zero stream from
position 0, so the banks coincide. -/
theorem C7_witness :
    (build_variations O0 (fun _ => (0 : ℚ)) 0 1 1).1 =
      (build_variations O0 (fun _ => (0 : ℚ)) 0 1 1).1 :=
  C7_bank_deterministic O0 (fun _ => 0) (fun _ => 0) 0 0 1 1 (fun _ _ => rfl)

/-- Claim C7, counterexample to the claim as stated: at amplitude 6/25
and sample rate 50, a first bank build (random stream position 0) and
a second bank build (position 3, as left behind by the first build)
produce different `noise_click` grains, because the unseeded random
stream returns different draws: the banks are not identical. -/
theorem C7_counterexample :
    (build_variations O0 cexRng 0 (6 / 25) 50).1 ≠
      (build_variations O0 cexRng
        ((build_variations O0 cexRng 0 (6 / 25) 50).2) (6 / 25) 50).1 := by
  have hn40 : (pyInt (((50 : ℤ) : ℚ) * (40 / 1000))).toNat = 2 := by
    have h : pyInt (((50 : ℤ) : ℚ) * (40 / 1000)) = 2 := by norm_num [pyInt]
    rw [h]; rfl
  have hn24 : (pyInt (((50 : ℤ) : ℚ) * (24 / 1000))).toNat = 1 := by
    have h : pyInt (((50 : ℤ) : ℚ) * (24 / 1000)) = 1 := by norm_num [pyInt]
    rw [h]; rfl
  have hpos : (build_variations O0 cexRng 0 (6 / 25) 50).2 = 3 := by
    simp only [build_variations, noiseDraws, hn40, hn24]
  rw [hpos]
  have hA7 : (build_variations O0 cexRng 0 (6 / 25) 50).1.get? 7 =
      some (mkVar "noise_click"
        (synth_noise O0 cexRng 0 40 (22 / 100) ((6 / 25) * (9 / 10)) 50) 40) := rfl
  have hB7 : (build_variations O0 cexRng 3 (6 / 25) 50).1.get? 7 =
      some (mkVar "noise_click"
        (synth_noise O0 cexRng 3 40 (22 / 100) ((6 / 25) * (9 / 10)) 50) 40) := rfl
  have hA : synth_noise O0 cexRng 0 40 (22 / 100) ((6 / 25) * (9 / 10)) 50 =
      [-(297 / 12500), -(26433 / 625000)] := by
    simp only [synth_noise]
    rw [hn40]
    rw [show (2 : ℕ) = 1 + 1 from rfl, noiseGo_succ]
    rw [show (1 : ℕ) = 0 + 1 from rfl, noiseGo_succ, noiseGo_zero]
    norm_num [hann_env, O0, cexRng]
  have hB : synth_noise O0 cexRng 3 40 (22 / 100) ((6 / 25) * (9 / 10)) 50 =
      [0, 0] := by
    simp only [synth_noise]
    rw [hn40]
    rw [show (2 : ℕ) = 1 + 1 from rfl, noiseGo_succ]
    rw [show (1 : ℕ) = 0 + 1 from rfl, noiseGo_succ, noiseGo_zero]
    norm_num [hann_env, O0, cexRng]
  have hLA : limit_peak [-(297 / 12500), -(26433 / 625000)] (98 / 100) true =
      [11583 / 1250000, -(11583 / 1250000)] := by
    norm_num [limit_peak, max_def]
    rw [show |(11583 / 1250000 : ℚ)| = 11583 / 1250000 from by norm_num]
    norm_num
    simp
  have hLB : limit_peak [(0 : ℚ), 0] (98 / 100) true = [0, 0] := by
    norm_num [limit_peak, max_def]
  intro heq
  have h7 := congrArg (fun l => l.get? 7) heq
  simp only at h7
  rw [hA7, hB7] at h7
  simp only [mkVar, Option.some.injEq, Variation.mk.injEq] at h7
  have hg := h7.2.1
  rw [hA, hB, hLA, hLB] at hg
  simp only [List.cons.injEq] at hg
  exact absurd hg.1 (by norm_num)

/-! Section: Claim C9: 16-bit PCM encoding -/

/-- Claim C9 (amended): when a grain or rendered line is persisted as
16-bit PCM, every sample `s` is encoded as the signed 16-bit
little-endian value `int(clamp(s) * 32767)` — Python truncation toward
zero, not rounding — where `clamp` restricts `s` to [-1, 1]; the
quantized value always fits in [-32767, 32767] (so the packing cannot
overflow), and each encoding is two bytes below 256. -/
theorem C9_pcm16_encoding :
    (∀ samples : List ℚ, pcm16_bytes samples =
      samples.flatMap (fun s => toLE16 (pyInt (clampQ s * 32767)))) ∧
    (∀ s : ℚ, -32767 ≤ pcm16_val s ∧ pcm16_val s ≤ 32767) ∧
    (∀ v : ℤ, (toLE16 v).length = 2 ∧ ∀ b ∈ toLE16 v, b < 256) := by
  refine ⟨fun samples => rfl, fun s => ?_, fun v => ?_⟩
  · have hcl : -1 ≤ clampQ s ∧ clampQ s ≤ 1 := by
      unfold clampQ
      split_ifs with h1 h2
      · exact ⟨le_refl _, by norm_num⟩
      · exact ⟨by norm_num, le_refl _⟩
      · exact ⟨le_of_not_lt h1, le_of_not_lt h2⟩
    have hlo : (-32767 : ℚ) ≤ clampQ s * 32767 := by nlinarith [hcl.1, hcl.2]
    have hhi : clampQ s * 32767 ≤ 32767 := by nlinarith [hcl.1, hcl.2]
    unfold pcm16_val pyInt
    split_ifs with hq
    · constructor
      · calc (-32767 : ℤ) = ⌈((-32767 : ℤ) : ℚ)⌉ := (Int.ceil_intCast _).symm
          _ ≤ ⌈clampQ s * 32767⌉ := Int.ceil_mono (by exact_mod_cast hlo)
      · exact Int.ceil_le.mpr (by exact_mod_cast hhi)
    · constructor
      · have h0 : 0 ≤ ⌊clampQ s * 32767⌋ :=
          Int.floor_nonneg.mpr (le_of_not_lt hq)
        omega
      · calc ⌊clampQ s * 32767⌋ ≤ ⌊((32767 : ℤ) : ℚ)⌋ :=
            Int.floor_mono (by exact_mod_cast hhi)
          _ = 32767 := Int.floor_intCast _
  · have hu : (v % 65536).toNat < 65536 := by
      have h1 : 0 ≤ v % 65536 := Int.emod_nonneg v (by norm_num)
      have h2 : v % 65536 < 65536 := Int.emod_lt_of_pos v (by norm_num)
      omega
    refine ⟨rfl, ?_⟩
    intro b hb
    unfold toLE16 at hb
    rcases List.mem_cons.mp hb with h | h
    · subst h; exact Nat.mod_lt _ (by norm_num)
    · rcases List.mem_cons.mp h with h2 | h2
      · subst h2; omega
      · cases h2

/-- Claim C9, counterexample to the claim as stated: for the sample
`s = 3/163835`, `clamp(s) * 32767 = 3/5`; the code encodes
`int(3/5) = 0`, while the claimed `round(3/5) = 1`. -/
theorem C9_counterexample :
    pcm16_val (3 / 163835) = 0 ∧
    roundQ (clampQ (3 / 163835) * 32767) = 1 ∧ (0 : ℤ) ≠ 1 := by
  have hc : clampQ (3 / 163835 : ℚ) = 3 / 163835 := by
    unfold clampQ
    rw [if_neg (by norm_num), if_neg (by norm_num)]
  have hm : (3 / 163835 : ℚ) * 32767 = 3 / 5 := by norm_num
  refine ⟨?_, ?_, by decide⟩
  · unfold pcm16_val
    rw [hc, hm, pyInt_of_nonneg (by norm_num)]
    norm_num
  · unfold roundQ
    rw [hc, hm]
    norm_num

/-! Section: Claim C10: the audio worker on close -/

/-- Claim C10 (the code violates it): `close()` sets the `stop` flag
and enqueues the sentinel; when the worker next reaches the loop top,
the `while not self.stop` test fails and the thread exits WITHOUT
processing the fragments still in the queue — here "F1" and "F2" are
both dropped (first conjunct).  Had `close()` relied on the sentinel
alone (no `stop` flag), the same loop would drain the queue in FIFO
order, as the claim demands (second and third conjuncts). -/
theorem C10_worker_drops_on_close :
    workerRun (workerClose ⟨false, [QItem.frag "F1", QItem.frag "F2"]⟩) = [] ∧
    workerRun ⟨false, [QItem.frag "F1", QItem.frag "F2", QItem.sentinel]⟩ =
      ["F1", "F2"] ∧
    ∀ frags : List String,
      workerLoop false (frags.map QItem.frag ++ [QItem.sentinel]) = frags := by
  refine ⟨rfl, rfl, ?_⟩
  intro frags
  induction frags with
  | nil => rfl
  | cons f fs ih => exact congrArg (List.cons f) ih
